import Mathlib

/-!
Verification of the square/metrics time-series query engine.

The Go sources are shallowly embedded. IEEE-754 float64 values are modelled
as `Option Rat`: `none` stands for NaN and `some q` for a finite value. All
arithmetic the verified code performs is exact on the inputs considered, so
rational arithmetic is a faithful model of it; NaN propagation follows the
IEEE rules used by the Go code (every arithmetic operation with a NaN operand
yields NaN, and every ordered comparison with a NaN operand is false).
-/

/-- Model of a float64 sample: `none` is NaN, `some q` a finite value. -/
abbrev F := Option ℚ

/-- Model of float64 addition: NaN absorbs. -/
def fadd : F → F → F
  | some a, some b => some (a + b)
  | _, _ => none

/-- Model of float64 subtraction: NaN absorbs. -/
def fsub : F → F → F
  | some a, some b => some (a - b)
  | _, _ => none

/-- Model of float64 division: NaN absorbs. -/
def fdiv : F → F → F
  | some a, some b => some (a / b)
  | _, _ => none

/-- Model of Go math.Min: NaN if either operand is NaN. -/
def fmin : F → F → F
  | some a, some b => some (min a b)
  | _, _ => none

/-- Model of Go math.Max: NaN if either operand is NaN. -/
def fmax : F → F → F
  | some a, some b => some (max a b)
  | _, _ => none

/-- Model of the float64 comparison x < y: false when either side is NaN. -/
def fltB : F → F → Bool
  | some a, some b => decide (a < b)
  | _, _ => false

/-- Model of math.IsNaN. -/
def fIsNaN : F → Bool
  | none => true
  | some _ => false

namespace api

/-- Model of api.TagSet, a Go map from tag key to tag value. A lookup of an
absent key yields the empty string, as Go map indexing does. -/
abbrev TagSet := List (String × String)

/-- Map lookup with the Go zero-value default: an absent key reads as "". -/
def tsGet (ts : TagSet) (k : String) : String :=
  match ts.find? (fun p => p.1 == k) with
  | some p => p.2
  | none => ""

/-- Model of api.Timerange with Start, End and Resolution in milliseconds. -/
structure Timerange where
  start : ℤ
  end_ : ℤ
  resolution : ℤ
deriving DecidableEq, Repr

/-- Model of Timerange.Slots: (End - Start) / Resolution + 1, with the Go
integer division, which truncates toward zero. -/
def Timerange.slots (t : Timerange) : ℤ :=
  Int.tdiv (t.end_ - t.start) t.resolution + 1

/-- Model of api.Timeseries: a vector of float64 values plus a tag set. -/
structure Timeseries where
  values : List F
  tagSet : TagSet
deriving DecidableEq, Repr

/-- Model of api.SeriesList: series over a shared timerange, with a name. -/
structure SeriesList where
  series : List Timeseries
  timerange : Timerange
  name : String
deriving DecidableEq, Repr

/-- Model of api.TaggedMetric: a metric key plus a tag set. -/
structure TaggedMetric where
  metricKey : String
  tagSet : TagSet
deriving DecidableEq, Repr

end api

namespace aggregate

open api

/-- Model of the group struct of the aggregate package. -/
structure Group where
  list : List Timeseries
  tagSet : TagSet
deriving DecidableEq, Repr

/-- Model of groupAccepts: the series belongs to the row if the two tag sets
agree on every grouped tag (an absent tag reads as the empty string). -/
def groupAccepts (left : TagSet) (right : TagSet) (tags : List String) : Bool :=
  tags.all (fun tag => tsGet left tag == tsGet right tag)

/-- The tag-set projection performed at the top of addToGroup: keep exactly
the grouped tags, reading absent ones as the empty string. -/
def projTags (tags : List String) (ts : TagSet) : TagSet :=
  tags.map (fun tag => (tag, tsGet ts tag))

/-- The search loop of addToGroup: append the series to the first accepting
row, or append a fresh single-member group at the end. -/
def insertToRows (rows : List Group) (series : Timeseries) (tags : List String) : List Group :=
  match rows with
  | [] => [⟨[series], series.tagSet⟩]
  | row :: rest =>
    if groupAccepts row.tagSet series.tagSet tags then
      { row with list := row.list ++ [series] } :: rest
    else
      row :: insertToRows rest series tags

/-- Model of addToGroup: replace the series tag set by its projection onto
the grouped tags, then place it into the first accepting bucket. -/
def addToGroup (rows : List Group) (series : Timeseries) (tags : List String) : List Group :=
  insertToRows rows { series with tagSet := projTags tags series.tagSet } tags

/-- Model of groupBy: fold every series of the list into its bucket. -/
def groupBy (list : SeriesList) (tags : List String) : List Group :=
  list.series.foldl (fun result series => addToGroup result series tags) []

/-- Model of filterNaN: remove NaN elements, producing the finite values. -/
def filterNaN (array : List F) : List ℚ :=
  array.filterMap id

/-- Model of the Sum aggregator: filter NaN, then fold the sum from 0. -/
def Sum (array : List F) : F :=
  some ((filterNaN array).foldl (fun sum v => sum + v) 0)

/-- Model of the Mean aggregator: filter NaN; NaN on empty, else sum / len. -/
def Mean (array : List F) : F :=
  match filterNaN array with
  | [] => none
  | x :: xs => some (((x :: xs).foldl (fun sum v => sum + v) 0) / ((x :: xs).length : ℚ))

/-- Model of the Min aggregator: filter NaN; NaN on empty, else fold min
starting from the first element. -/
def Min (array : List F) : F :=
  match filterNaN array with
  | [] => none
  | x :: xs => some ((x :: xs).foldl min x)

/-- Model of the Max aggregator: filter NaN; NaN on empty, else fold max
starting from the first element. -/
def Max (array : List F) : F :=
  match filterNaN array with
  | [] => none
  | x :: xs => some ((x :: xs).foldl max x)

/-- The two run-time failures of applyAggregation: the explicit panic on an
empty group, and the slice-index panic when members disagree on length. -/
inductive AggErr where
  | emptyGroup
  | indexOutOfRange
deriving DecidableEq, Repr

/-- Sequence an optional computation over a list, failing on the first none;
this models a Go loop that panics at the first out-of-range slice index. -/
def mapMOption (f : α → Option β) : List α → Option (List β)
  | [] => some []
  | a :: as =>
    match f a with
    | none => none
    | some b =>
      match mapMOption f as with
      | none => none
      | some bs => some (b :: bs)

/-- Sequence a fallible computation over a list, stopping at the first error;
this models a Go loop that returns on the first error. -/
def mapMExcept (f : α → Except ε β) : List α → Except ε (List β)
  | [] => .ok []
  | a :: as =>
    match f a with
    | .error e => .error e
    | .ok b =>
      match mapMExcept f as with
      | .error e => .error e
      | .ok bs => .ok (b :: bs)

/-- Model of applyAggregation: the slot count comes from the first member;
slot i of the result is the aggregator applied to the members' values at
slot i. The panic on an empty group and the index panic on a short member
are modelled as errors. -/
def applyAggregation (group : Group) (aggregator : List F → F) : Except AggErr Timeseries :=
  match group.list with
  | [] => .error AggErr.emptyGroup
  | s0 :: _ =>
    match mapMOption (fun i => mapMOption (fun s => s.values[i]?) group.list)
        (List.range s0.values.length) with
    | none => .error AggErr.indexOutOfRange
    | some slices => .ok ⟨slices.map aggregator, group.tagSet⟩

/-- Model of AggregateBy: group the list, aggregate every group, and keep the
timerange and name of the input. -/
def AggregateBy (list : SeriesList) (aggregator : List F → F) (tags : List String) :
    Except AggErr SeriesList :=
  match mapMExcept (fun group => applyAggregation group aggregator) (groupBy list tags) with
  | .error e => .error e
  | .ok series => .ok ⟨series, list.timerange, list.name⟩

end aggregate

namespace function

/-- Model of function.Value as far as transforms consume it. -/
inductive Value where
  | scalar (q : ℚ)
  | string (s : String)
deriving DecidableEq, Repr

end function

namespace transform

open api

/-- Model of the transform function type of the transform package. -/
abbrev TransformFn := List F → List function.Value → ℚ → Except String (List F)

/-- Model of transformTimeseries: run the transform on the value vector and
carry the tag set over unchanged. -/
def transformTimeseries (series : Timeseries) (t : TransformFn)
    (parameters : List function.Value) (scale : ℚ) : Except String Timeseries :=
  match t series.values parameters scale with
  | .error e => .error e
  | .ok values => .ok ⟨values, series.tagSet⟩

/-- Model of ApplyTransform: transform every series with scale equal to the
resolution in seconds, keeping the timerange and the name. -/
def ApplyTransform (list : SeriesList) (t : TransformFn) (parameters : List function.Value) :
    Except String SeriesList :=
  match aggregate.mapMExcept
      (fun series => transformTimeseries series t parameters ((list.timerange.resolution : ℚ) / 1000))
      list.series with
  | .error e => .error e
  | .ok series => .ok ⟨series, list.timerange, list.name⟩

/-- Model of Derivative: 0 at index 0, then the scaled consecutive
difference, with NaN propagation through the float subtraction. -/
def Derivative (values : List F) (parameters : List function.Value) (scale : ℚ) :
    Except String (List F) :=
  .ok ((List.range values.length).map (fun i =>
    if i = 0 then some 0
    else fdiv (fsub (values.getD i none) (values.getD (i - 1) none)) (some scale)))

/-- Model of Rate: like Derivative, but a negative entry is clamped to 0;
the comparison is false on NaN, so NaN stays NaN. -/
def Rate (values : List F) (parameters : List function.Value) (scale : ℚ) :
    Except String (List F) :=
  .ok ((List.range values.length).map (fun i =>
    if i = 0 then some 0
    else
      let r := fdiv (fsub (values.getD i none) (values.getD (i - 1) none)) (some scale)
      if fltB r (some 0) then some 0 else r))

/-- The running-sum loop of Cumulative: NaN entries leave the sum unchanged,
and every emitted entry is the current sum. -/
def cumulAux : ℚ → List F → List F
  | _, [] => []
  | sum, v :: rest =>
    match v with
    | some x => some (sum + x) :: cumulAux (sum + x) rest
    | none => some sum :: cumulAux sum rest

/-- Model of Cumulative: the cumulative sum of the values, skipping NaN. -/
def Cumulative (values : List F) (parameters : List function.Value) (scale : ℚ) :
    Except String (List F) :=
  .ok (cumulAux 0 values)

end transform

namespace blueflood

open api

/-- Model of the blueflood metricPoint: a raw backend sample. The numPoints
field is never read by the verified code and is omitted from the model. -/
structure metricPoint where
  timestamp : ℤ
  average : F
  max : F
  min : F
deriving DecidableEq, Repr

/-- Model of the blueflood queryResponse. -/
structure queryResponse where
  values : List metricPoint
deriving DecidableEq, Repr

/-- Model of the sampler struct: how to pick a field from a point and how to
collapse one bucket into one value. -/
structure sampler where
  fieldSelector : metricPoint → F
  bucketSampler : List F → F

/-- Model of addMetricPoint of the newer blueflood fetcher. The bucket index
is (timestamp - start) / resolution with the Go integer division, which
truncates toward zero; an index outside the slot range is dropped. -/
def addMetricPoint (point : metricPoint) (field : metricPoint → F) (timerange : Timerange)
    (buckets : List (List F)) : List (List F) :=
  let index := Int.tdiv (point.timestamp - timerange.start) timerange.resolution
  if index < 0 ∨ timerange.slots ≤ index then buckets
  else buckets.set index.toNat (buckets.getD index.toNat [] ++ [field point])

/-- Model of bucketsFromMetricPoints: start from Slots-many empty buckets and
place every point. -/
def bucketsFromMetricPoints (metricPoints : List metricPoint) (resultField : metricPoint → F)
    (timerange : Timerange) : List (List F) :=
  metricPoints.foldl (fun buckets point => addMetricPoint point resultField timerange buckets)
    (List.replicate timerange.slots.toNat [])

/-- Model of processResult: bucket the response points, then collapse every
bucket, an empty bucket becoming NaN. -/
def processResult (parsedResult : queryResponse) (timerange : Timerange) (sampler : sampler) :
    List F :=
  (bucketsFromMetricPoints parsedResult.values sampler.fieldSelector timerange).map
    (fun bucket => if bucket.isEmpty then none else sampler.bucketSampler bucket)

/-- Model of the mean bucket sampler of samplerMap: sum the bucket and divide
by its length. -/
def meanSampler : sampler :=
  ⟨fun point => point.average,
   fun bucket => fdiv (bucket.foldl fadd (some 0)) (some (bucket.length : ℚ))⟩

/-- Model of the min bucket sampler of samplerMap: fold math.Min from the
first element. -/
def minSampler : sampler :=
  ⟨fun point => point.min,
   fun bucket =>
     match bucket with
     | [] => none
     | v :: _ => bucket.foldl fmin v⟩

/-- Model of the max bucket sampler of samplerMap: fold math.Max from the
first element. -/
def maxSampler : sampler :=
  ⟨fun point => point.max,
   fun bucket =>
     match bucket with
     | [] => none
     | v :: _ => bucket.foldl fmax v⟩

end blueflood

namespace query

open api

/-- Model of api.Predicate as far as Evaluate consumes it: its Apply method
on a tag set. -/
abbrev Predicate := TagSet → Bool

/-- Model of api.TruePredicate. -/
def TruePredicate : Predicate := fun _ => true

/-- Model of andPredicate.Apply: every member predicate must hold. -/
def andPredicate (preds : List Predicate) : Predicate :=
  fun ts => preds.all (fun p => p ts)

/-- Model of applyPredicates: keep the tag sets satisfying the predicate. -/
def applyPredicates (tagSets : List TagSet) (predicate : Predicate) : List TagSet :=
  tagSets.filter (fun ts => predicate ts)

/-- Modelled from the spec: the FetchCounter type is not part of the given
sources, only its callers are. Per the spec it tracks the cumulative number
of admitted single fetches against a user-supplied fetch limit. -/
structure FetchCounter where
  current : ℕ
  limit : ℕ
deriving DecidableEq, Repr

/-- Modelled from the spec: FetchCounter.Consume(k) atomically either
admits k more fetches, incrementing the counter, or fails without change
when the limit would be exceeded. -/
def FetchCounter.consume (c : FetchCounter) (k : ℕ) : Bool × FetchCounter :=
  if c.current + k ≤ c.limit then (true, ⟨c.current + k, c.limit⟩) else (false, c)

/-- Model of metricFetchExpression: a metric name and an optional local
predicate. -/
structure metricFetchExpression where
  metricName : String
  predicate : Option Predicate

/-- Model of the slice of function.EvaluationContext that Evaluate reads: the
context predicate, the metadata API GetAllTags answer for the fetched metric
key, the fetch-limit counter, and the multi-backend as a function from the
requested tagged metrics to its answer. -/
structure EvaluationContext where
  contextPredicate : Option Predicate
  getAllTags : String → Except String (List TagSet)
  fetchLimit : FetchCounter
  multiBackend : List TaggedMetric → Except String SeriesList

/-- The observable outcome of one Evaluate call: the returned value or error,
the fetch counter afterwards, and whether a multi-fetch was issued. -/
structure EvalOutcome where
  result : Except String SeriesList
  counter : FetchCounter
  fetchIssued : Bool

/-- Model of metricFetchExpression.Evaluate: merge the context predicate with
the local one, filter the tag sets of the metric, admit the survivors through
the fetch counter, and on success fetch them and name the series list after
the metric. -/
def Evaluate (context : EvaluationContext) (expr : metricFetchExpression) : EvalOutcome :=
  let predicate : Predicate :=
    match context.contextPredicate, expr.predicate with
    | none, none => TruePredicate
    | none, some p => p
    | some p, none => p
    | some cp, some ep => andPredicate [ep, cp]
  match context.getAllTags expr.metricName with
  | .error e => ⟨.error e, context.fetchLimit, false⟩
  | .ok metricTagSets =>
    let filtered := applyPredicates metricTagSets predicate
    let consumed := context.fetchLimit.consume filtered.length
    if consumed.1 then
      match context.multiBackend (filtered.map (fun ts => ⟨expr.metricName, ts⟩)) with
      | .error e => ⟨.error e, consumed.2, true⟩
      | .ok serieslist => ⟨.ok { serieslist with name := expr.metricName }, consumed.2, true⟩
    else
      ⟨.error "fetch limit exceeded: too many series to fetch", consumed.2, false⟩

end query

namespace rules

/-- Modelled from the spec: the rule engine (internal.Compile, MatchRule and
ToGraphiteName) is not part of the given sources; only its tests and callers
are. A compiled pattern is a sequence of literal segments and tag
placeholders. -/
inductive Piece where
  | lit (s : List Char)
  | tag (t : String)
deriving DecidableEq, Repr

/-- Captured tag values, in pattern order. -/
abbrev Bindings := List (String × List Char)

/-- Consume a literal from the front of the input, or fail. -/
def dropLit : List Char → List Char → Option (List Char)
  | [], cs => some cs
  | _ :: _, [] => none
  | a :: as, c :: cs => if a = c then dropLit as cs else none

/-- Length of the maximal run of characters excluding the dot separator. -/
def nonDotLen : List Char → ℕ
  | [] => 0
  | c :: cs => if c = '.' then 0 else nonDotLen cs + 1

/-- Modelled from the spec: anchored matching of a compiled pattern. A tag
placeholder captures a maximal non-empty run of non-separator characters
(the default regex of the spec), backtracking to shorter runs as needed,
exactly like the greedy anchored regex the spec prescribes. -/
def matchPieces : List Piece → List Char → Option Bindings
  | [], cs => if cs.isEmpty then some [] else none
  | .lit s :: rest, cs =>
    match dropLit s cs with
    | none => none
    | some r => matchPieces rest r
  | .tag t :: rest, cs =>
    ((List.range (nonDotLen cs)).map (fun j => nonDotLen cs - j)).findSome? (fun k =>
      (matchPieces rest (List.drop k cs)).map (fun bs => (t, List.take k cs) :: bs))

/-- First binding for a tag, if any. -/
def lookupB (bs : Bindings) (t : String) : Option (List Char) :=
  match bs.find? (fun p => p.1 == t) with
  | some p => some p.2
  | none => none

/-- Tag names of a pattern, in order. -/
def tagNames : List Piece → List String
  | [] => []
  | .lit _ :: rest => tagNames rest
  | .tag t :: rest => t :: tagNames rest

/-- Modelled from the spec: substitute every tag placeholder using the given
resolver, failing when a required tag is absent. -/
def interpolate : List Piece → (String → Option (List Char)) → Option (List Char)
  | [], _ => some []
  | .lit s :: rest, f => (interpolate rest f).map (fun r => s ++ r)
  | .tag t :: rest, f =>
    match f t with
    | none => none
    | some v => (interpolate rest f).map (fun r => v ++ r)

/-- The tagged metric as seen by the rule engine: a metric key text plus the
captured tag values. -/
structure TaggedMetric where
  metricKey : List Char
  tagSet : Bindings
deriving DecidableEq, Repr

/-- Modelled from the spec: a compiled rule holds the compiled graphite
pattern and the compiled metric-key pattern. -/
structure Rule where
  pattern : List Piece
  metricKeyPattern : List Piece
deriving DecidableEq, Repr

/-- A piece is a tag placeholder. -/
def Piece.isTag : Piece → Bool
  | .lit _ => false
  | .tag _ => true

/-- Adjacent tag placeholders with no separator in between. -/
def hasAdjacentTags : List Piece → Bool
  | .tag _ :: .tag _ :: _ => true
  | _ :: rest => hasAdjacentTags rest
  | [] => false

/-- Modelled from the spec: the checks performed by Compile. The pattern and
the metric-key pattern are non-empty, no tag repeats within one pattern, no
two placeholders are adjacent, literal segments are non-empty, and every tag
of the metric-key pattern occurs in the graphite pattern. -/
def ruleValid (rule : Rule) : Bool :=
  decide (rule.pattern ≠ []) &&
  decide (rule.metricKeyPattern ≠ []) &&
  (tagNames rule.pattern).Nodup &&
  (tagNames rule.metricKeyPattern).Nodup &&
  !hasAdjacentTags rule.pattern &&
  !hasAdjacentTags rule.metricKeyPattern &&
  rule.pattern.all (fun p => match p with | .lit s => !s.isEmpty | .tag _ => true) &&
  rule.metricKeyPattern.all (fun p => match p with | .lit s => !s.isEmpty | .tag _ => true) &&
  (tagNames rule.metricKeyPattern).all (fun t => (tagNames rule.pattern).contains t)

/-- Modelled from the spec: the forward operation MatchRule. The first (and
here, only) rule whose anchored regex matches yields the metric key obtained
by substituting captures into the metric-key pattern, and the tag set of the
captures, the captures consumed by the metric key being filtered out of the
tag set. -/
def MatchRule (rule : Rule) (name : List Char) : Option rules.TaggedMetric :=
  match matchPieces rule.pattern name with
  | none => none
  | some bs =>
    match interpolate rule.metricKeyPattern (lookupB bs) with
    | none => none
    | some key =>
      some ⟨key, bs.filter (fun p => !(tagNames rule.metricKeyPattern).contains p.1)⟩

/-- Conversion failures of the inverse operation. -/
inductive ConversionErrorCode where
  | missingTag
  | cannotInterpolate
deriving DecidableEq, Repr

/-- Modelled from the spec: the inverse operation ToGraphiteName. Match the
metric key against the metric-key pattern (CannotInterpolate on failure),
then substitute the tags of the graphite pattern, drawing first from those
captures and otherwise from the tag set (MissingTag when absent). -/
def ToGraphiteName (rule : Rule) (metric : rules.TaggedMetric) :
    Except ConversionErrorCode (List Char) :=
  match matchPieces rule.metricKeyPattern metric.metricKey with
  | none => .error ConversionErrorCode.cannotInterpolate
  | some kbs =>
    match interpolate rule.pattern
        (fun t =>
          match lookupB kbs t with
          | some v => some v
          | none => lookupB metric.tagSet t) with
    | none => .error ConversionErrorCode.missingTag
    | some name => .ok name

end rules

/-- Model of the float64 comparison x <= y: false when either side is NaN. -/
def fleB : F → F → Bool
  | some a, some b => decide (a ≤ b)
  | _, _ => false

/-- A vector is monotonically nondecreasing when every consecutive pair is
ordered; a NaN entry breaks monotonicity, as every IEEE comparison with NaN
is false. -/
def monotoneNondecreasing (l : List F) : Prop :=
  List.Chain' (fun a b => fleB a b = true) l

namespace aggregate

/-- Representatives in first-encounter order: fold the list, appending every
value not seen before. -/
def firstEncounters (l : List api.TagSet) : List api.TagSet :=
  l.foldl (fun acc x => if x ∈ acc then acc else acc ++ [x]) []

end aggregate

/-- The running sum after absorbing one value: NaN leaves it unchanged. -/
def nsum (s : ℚ) : F → ℚ
  | some x => s + x
  | none => s

/-- Well-formedness of a row list maintained by the grouping loop: every
group is non-empty, every member carries exactly the group tag set, and every
group tag set is a projection onto the grouped tags. -/
def GroupsWF (tags : List String) (rows : List aggregate.Group) : Prop :=
  ∀ g ∈ rows, g.list ≠ []
    ∧ (∀ s ∈ g.list, s.tagSet = g.tagSet)
    ∧ ∃ ts, g.tagSet = aggregate.projTags tags ts

namespace query

/-- The merged predicate of the claim: the context predicate AND the local
predicate of the expression, either of which may be absent. -/
def mergedApply (contextPredicate localPredicate : Option Predicate) : Predicate :=
  fun ts =>
    (match contextPredicate with
     | none => true
     | some p => p ts)
    && (match localPredicate with
        | none => true
        | some p => p ts)

end query

namespace rules

/-- Concatenation of the literal segments of an all-literal pattern. -/
def litConcat : List Piece → List Char
  | [] => []
  | .lit s :: rest => s ++ litConcat rest
  | .tag _ :: rest => litConcat rest

end rules

/-- The four identically tagged series of the aggregation test scenario. -/
def c6series : List api.Timeseries :=
  [⟨[some 0, some 1, some 2, some 3], [("env", "production"), ("dc", "A")]⟩,
   ⟨[some 4, some 0, some 4, some 4], [("env", "production"), ("dc", "A")]⟩,
   ⟨[some (-1), some (-1), some 2, some 2], [("env", "production"), ("dc", "A")]⟩,
   ⟨[some 0, some 2, some 0, some 2], [("env", "production"), ("dc", "A")]⟩]

/-- The series list holding the four test series. -/
def c6list : api.SeriesList := ⟨c6series, ⟨42, 60, 6⟩, "test"⟩

/-- The concrete rule of the C1 counterexample: graphite pattern
p.%x%.%y% with metric-key pattern %x%-%y%. -/
def cRule : rules.Rule :=
  ⟨[.lit ("p.".toList), .tag "x", .lit (".".toList), .tag "y"],
   [.tag "x", .lit ("-".toList), .tag "y"]⟩

/-- The concrete rule of the C1 witness: pattern prefix.%foo% with the
all-literal metric key test-metric. -/
def wRule : rules.Rule :=
  ⟨[.lit ("prefix.".toList), .tag "foo"], [.lit ("test-metric".toList)]⟩

section ReducerLemmas

lemma foldl_add_eq_sum (l : List ℚ) : ∀ a : ℚ, l.foldl (fun s v => s + v) a = a + l.sum := by
  induction l with
  | nil => simp
  | cons x xs ih =>
    intro a
    simp only [List.foldl_cons, ih, List.sum_cons]
    ring

lemma foldl_min_mem (l : List ℚ) : ∀ a : ℚ, l.foldl min a ∈ a :: l := by
  induction l with
  | nil => simp
  | cons x xs ih =>
    intro a
    have h := ih (min a x)
    rw [List.foldl_cons]
    rcases List.mem_cons.mp h with h1 | h1
    · rcases min_choice a x with h2 | h2
      · rw [h1, h2]
        exact List.mem_cons_self _ _
      · rw [h1, h2]
        exact List.mem_cons_of_mem _ (List.mem_cons_self _ _)
    · exact List.mem_cons_of_mem _ (List.mem_cons_of_mem _ h1)

lemma foldl_min_le (l : List ℚ) : ∀ a : ℚ, l.foldl min a ≤ a ∧ ∀ x ∈ l, l.foldl min a ≤ x := by
  induction l with
  | nil => simp
  | cons x xs ih =>
    intro a
    obtain ⟨h1, h2⟩ := ih (min a x)
    constructor
    · rw [List.foldl_cons]
      exact le_trans h1 (min_le_left a x)
    · intro y hy
      rw [List.foldl_cons]
      rcases List.mem_cons.mp hy with h3 | h3
      · rw [h3]
        exact le_trans h1 (min_le_right a x)
      · exact h2 y h3

lemma foldl_max_mem (l : List ℚ) : ∀ a : ℚ, l.foldl max a ∈ a :: l := by
  induction l with
  | nil => simp
  | cons x xs ih =>
    intro a
    have h := ih (max a x)
    rw [List.foldl_cons]
    rcases List.mem_cons.mp h with h1 | h1
    · rcases max_choice a x with h2 | h2
      · rw [h1, h2]
        exact List.mem_cons_self _ _
      · rw [h1, h2]
        exact List.mem_cons_of_mem _ (List.mem_cons_self _ _)
    · exact List.mem_cons_of_mem _ (List.mem_cons_of_mem _ h1)

lemma foldl_max_ge (l : List ℚ) : ∀ a : ℚ, a ≤ l.foldl max a ∧ ∀ x ∈ l, x ≤ l.foldl max a := by
  induction l with
  | nil => simp
  | cons x xs ih =>
    intro a
    obtain ⟨h1, h2⟩ := ih (max a x)
    constructor
    · rw [List.foldl_cons]
      exact le_trans (le_max_left a x) h1
    · intro y hy
      rw [List.foldl_cons]
      rcases List.mem_cons.mp hy with h3 | h3
      · rw [h3]
        exact le_trans (le_max_right a x) h1
      · exact h2 y h3

end ReducerLemmas

/-- C4: each reducer Sum, Mean, Min, Max first drops NaN entries; on an empty
remainder Sum returns 0 (so an all-NaN input sums to 0) while Mean, Min and
Max return NaN; otherwise the result is the mathematical sum, arithmetic
mean, minimum or maximum of the remaining entries. -/
theorem c4_reducers (array : List F) :
    aggregate.Sum array = some (aggregate.filterNaN array).sum
    ∧ (aggregate.filterNaN array = [] →
        aggregate.Sum array = some 0 ∧ aggregate.Mean array = none
        ∧ aggregate.Min array = none ∧ aggregate.Max array = none)
    ∧ (aggregate.filterNaN array ≠ [] →
        aggregate.Mean array
            = some ((aggregate.filterNaN array).sum / ((aggregate.filterNaN array).length : ℚ))
        ∧ (∃ m, aggregate.Min array = some m ∧ m ∈ aggregate.filterNaN array
            ∧ ∀ x ∈ aggregate.filterNaN array, m ≤ x)
        ∧ (∃ m, aggregate.Max array = some m ∧ m ∈ aggregate.filterNaN array
            ∧ ∀ x ∈ aggregate.filterNaN array, x ≤ m)) := by
  refine ⟨?_, ?_, ?_⟩
  · simp [aggregate.Sum, foldl_add_eq_sum]
  · intro h
    simp [aggregate.Sum, aggregate.Mean, aggregate.Min, aggregate.Max, h]
  · intro h
    obtain ⟨x, xs, hx⟩ := List.exists_cons_of_ne_nil h
    rw [hx]
    refine ⟨?_, ?_, ?_⟩
    · simp only [aggregate.Mean, hx]
      rw [foldl_add_eq_sum, zero_add]
    · refine ⟨(x :: xs).foldl min x, ?_, ?_, ?_⟩
      · simp only [aggregate.Min, hx]
      · have hm := foldl_min_mem (x :: xs) x
        rcases List.mem_cons.mp hm with h1 | h1
        · rw [h1]
          exact List.mem_cons_self x xs
        · exact h1
      · intro y hy
        exact (foldl_min_le (x :: xs) x).2 y hy
    · refine ⟨(x :: xs).foldl max x, ?_, ?_, ?_⟩
      · simp only [aggregate.Max, hx]
      · have hm := foldl_max_mem (x :: xs) x
        rcases List.mem_cons.mp hm with h1 | h1
        · rw [h1]
          exact List.mem_cons_self x xs
        · exact h1
      · intro y hy
        exact (foldl_max_ge (x :: xs) x).2 y hy

/-- Witness for C4 at a concrete input containing a NaN. -/
theorem c4_reducers_witness :
    aggregate.Mean [some 1, none, some 2]
      = some ((aggregate.filterNaN [some 1, none, some 2]).sum
          / ((aggregate.filterNaN [some 1, none, some 2]).length : ℚ))
    ∧ aggregate.Sum [none, none] = some 0 := by
  constructor
  · exact ((c4_reducers [some 1, none, some 2]).2.2 (by simp [aggregate.filterNaN])).1
  · exact ((c4_reducers [none, none]).2.1 (by simp [aggregate.filterNaN])).1

lemma cumulAux_cons (s : ℚ) (v : F) (rest : List F) :
    transform.cumulAux s (v :: rest) = some (nsum s v) :: transform.cumulAux (nsum s v) rest := by
  cases v <;> rfl

lemma fleB_nsum (a : ℚ) (v : F) :
    fleB (some a) (some (nsum a v)) = true ↔ (v = none ∨ ∃ q, v = some q ∧ 0 ≤ q) := by
  cases v with
  | none => simp [fleB, nsum]
  | some q => simp [fleB, nsum]

lemma chain_cumulAux (values : List F) : ∀ s : ℚ,
    List.Chain' (fun a b => fleB a b = true) (transform.cumulAux s values)
    ↔ ∀ v ∈ values.drop 1, (v = none ∨ ∃ q, v = some q ∧ 0 ≤ q) := by
  induction values with
  | nil =>
    intro s
    simp [transform.cumulAux]
  | cons v1 tail ih =>
    intro s
    rw [cumulAux_cons]
    cases tail with
    | nil => simp [transform.cumulAux]
    | cons v2 rest =>
      rw [cumulAux_cons, List.chain'_cons, ← cumulAux_cons, ih (nsum s v1), fleB_nsum]
      simp [List.forall_mem_cons]

/-- C3 (amended): the output of Cumulative is monotonically nondecreasing iff
every input value after the first one is NaN or nonnegative. The first value
and NaN entries never affect monotonicity, since a NaN input leaves the
running sum unchanged. -/
theorem c3_cumulative_monotone_amended (values : List F) (parameters : List function.Value)
    (scale : ℚ) (r : List F) (h : transform.Cumulative values parameters scale = Except.ok r) :
    monotoneNondecreasing r ↔ ∀ v ∈ values.drop 1, (v = none ∨ ∃ q, v = some q ∧ 0 ≤ q) := by
  have hr : r = transform.cumulAux 0 values := by
    have := h
    simp only [transform.Cumulative, Except.ok.injEq] at this
    exact this.symm
  rw [hr]
  exact chain_cumulAux values 0

/-- Witness for C3 (amended) at a concrete input. -/
theorem c3_cumulative_monotone_amended_witness : monotoneNondecreasing [some 1, some 3] :=
  (c3_cumulative_monotone_amended [some 1, some 2] [] 1 [some 1, some 3]
      (by simp [transform.Cumulative, transform.cumulAux]; norm_num)).mpr
    (by
      intro v hv
      simp only [List.drop_one, List.tail_cons, List.mem_singleton] at hv
      exact Or.inr ⟨2, by rw [hv], by norm_num⟩)

/-- C3 counterexample: on the input [-5, 1] the output of Cumulative is
[-5, -4], which is monotonically nondecreasing although the input contains a
negative value, so monotonicity does not imply that all inputs are
nonnegative. -/
theorem c3_counterexample :
    transform.Cumulative [some (-5), some 1] [] 1 = Except.ok [some (-5), some (-4)]
    ∧ monotoneNondecreasing [some (-5), some (-4)]
    ∧ ¬ (∀ v ∈ ([some (-5), some 1] : List F), ∃ q, v = some q ∧ 0 ≤ q) := by
  refine ⟨?_, ?_, ?_⟩
  · simp [transform.Cumulative, transform.cumulAux]
    norm_num
  · simp [monotoneNondecreasing, List.chain'_cons, List.chain'_singleton, fleB]
    norm_num
  · intro hall
    obtain ⟨q, hq, hq0⟩ := hall (some (-5)) (by simp)
    rw [Option.some_inj] at hq
    rw [← hq] at hq0
    linarith

/-- C7: Derivative returns 0 at index 0 and the scaled consecutive difference
(v[i] - v[i-1]) / scale at every later index, yielding NaN whenever either
operand is NaN; Rate equals Derivative with every negative output clamped to
0 while NaN outputs stay NaN. -/
theorem c7_derivative_rate (values : List F) (parameters : List function.Value) (scale : ℚ)
    (r : List F) (h : transform.Derivative values parameters scale = Except.ok r) :
    r.length = values.length
    ∧ (0 < values.length → r[0]? = some (some 0))
    ∧ (∀ i, 0 < i → i < values.length →
        ((values[i]? = some none ∨ values[i - 1]? = some none) → r[i]? = some none)
        ∧ (∀ a b, values[i - 1]? = some (some a) → values[i]? = some (some b) →
            r[i]? = some (some ((b - a) / scale))))
    ∧ transform.Rate values parameters scale
        = Except.ok (r.map (Option.map (fun x => max x 0))) := by
  have hr : r = (List.range values.length).map (fun i =>
      if i = 0 then some 0
      else fdiv (fsub (values.getD i none) (values.getD (i - 1) none)) (some scale)) := by
    have h2 := h
    simp only [transform.Derivative, Except.ok.injEq] at h2
    exact h2.symm
  have helem : ∀ i, i < values.length → r[i]? = some (
      if i = 0 then some 0
      else fdiv (fsub (values.getD i none) (values.getD (i - 1) none)) (some scale)) := by
    intro i hi
    rw [hr, List.getElem?_map]
    simp [List.getElem?_range, hi]
  refine ⟨by simp [hr], ?_, ?_, ?_⟩
  · intro hpos
    rw [helem 0 hpos]
    simp
  · intro i hi0 hilt
    have hne : i ≠ 0 := Nat.pos_iff_ne_zero.mp hi0
    constructor
    · intro hnan
      rw [helem i hilt, if_neg hne]
      rcases hnan with hn | hn
      · have hc : values.getD i none = none := by
          simp [List.getD_eq_getElem?_getD, hn]
        rw [hc]
        cases hp : values.getD (i - 1) none <;> simp [fsub, fdiv]
      · have hc : values.getD (i - 1) none = none := by
          simp [List.getD_eq_getElem?_getD, hn]
        rw [hc]
        cases hp : values.getD i none <;> simp [fsub, fdiv]
    · intro a b ha hb
      rw [helem i hilt, if_neg hne]
      have hca : values.getD (i - 1) none = some a := by
        simp [List.getD_eq_getElem?_getD, ha]
      have hcb : values.getD i none = some b := by
        simp [List.getD_eq_getElem?_getD, hb]
      rw [hca, hcb]
      simp [fsub, fdiv]
  · rw [hr, transform.Rate, List.map_map]
    refine congrArg Except.ok (List.map_congr_left ?_)
    intro i hi
    by_cases hz : i = 0
    · simp [hz, fltB]
    · simp only [hz, if_false, Function.comp]
      cases hd : fdiv (fsub (values.getD i none) (values.getD (i - 1) none)) (some scale) with
      | none => simp [fltB]
      | some x =>
        by_cases hx : x < 0
        · simp [fltB, hx, max_eq_right (le_of_lt hx)]
        · simp [fltB, hx, max_eq_left (not_lt.mp hx)]

/-- Witness for C7 at a concrete input containing a NaN. -/
theorem c7_derivative_rate_witness :
    transform.Rate [some 1, some 3, none] [] 2
      = Except.ok (([some 0, some 1, none] : List F).map (Option.map (fun x => max x 0)))
    ∧ ([some 0, some 1, none] : List F)[1]? = some (some ((3 - 1) / 2)) := by
  have happ := c7_derivative_rate [some 1, some 3, none] [] 2 [some 0, some 1, none]
    (by simp [transform.Derivative, fsub, fdiv, List.range_succ]; norm_num)
  exact ⟨happ.2.2.2, ((happ.2.2.1 1 (by norm_num) (by norm_num)).2 1 3 (by rfl) (by rfl))⟩

lemma mapMExcept_ok_forall2 {α β ε : Type} {f : α → Except ε β} :
    ∀ {l : List α} {r : List β}, aggregate.mapMExcept f l = Except.ok r →
      List.Forall₂ (fun a b => f a = Except.ok b) l r := by
  intro l
  induction l with
  | nil =>
    intro r h
    simp only [aggregate.mapMExcept, Except.ok.injEq] at h
    rw [← h]
    exact List.Forall₂.nil
  | cons a as ih =>
    intro r h
    simp only [aggregate.mapMExcept] at h
    cases hfa : f a with
    | error e =>
      rw [hfa] at h
      simp at h
    | ok b =>
      rw [hfa] at h
      cases hrest : aggregate.mapMExcept f as with
      | error e =>
        rw [hrest] at h
        simp at h
      | ok bs =>
        rw [hrest] at h
        simp only [Except.ok.injEq] at h
        rw [← h]
        exact List.Forall₂.cons hfa (ih hrest)

lemma forall2_getElem? {α β : Type} {R : α → β → Prop} :
    ∀ {l : List α} {r : List β}, List.Forall₂ R l r →
      ∀ i : ℕ, (l[i]? = none ∧ r[i]? = none)
        ∨ ∃ a b, l[i]? = some a ∧ r[i]? = some b ∧ R a b := by
  intro l r h
  induction h with
  | nil =>
    intro i
    left
    simp
  | @cons a b l2 r2 hab htail ih =>
    intro i
    cases i with
    | zero => exact Or.inr ⟨a, b, by simp, by simp, hab⟩
    | succ n => simpa using ih n

lemma transformTimeseries_ok_tagSet (series : api.Timeseries) (t : transform.TransformFn)
    (parameters : List function.Value) (scale : ℚ) (out : api.Timeseries)
    (h : transform.transformTimeseries series t parameters scale = Except.ok out) :
    out.tagSet = series.tagSet := by
  simp only [transform.transformTimeseries] at h
  cases ht : t series.values parameters scale with
  | error e =>
    rw [ht] at h
    simp at h
  | ok values =>
    rw [ht] at h
    simp only [Except.ok.injEq] at h
    rw [← h]

/-- C9: a successful transform application changes only the value vectors:
transformTimeseries keeps the tag set of its input, and ApplyTransform keeps
the timerange and name of the input list and produces one output series, in
order, per input series, each with the tag set of its input. -/
theorem c9_transform_frame :
    (∀ (series : api.Timeseries) (t : transform.TransformFn) (parameters : List function.Value)
        (scale : ℚ) (out : api.Timeseries),
      transform.transformTimeseries series t parameters scale = Except.ok out →
        out.tagSet = series.tagSet)
    ∧ (∀ (list : api.SeriesList) (t : transform.TransformFn) (parameters : List function.Value)
        (out : api.SeriesList),
      transform.ApplyTransform list t parameters = Except.ok out →
        out.timerange = list.timerange ∧ out.name = list.name
        ∧ out.series.length = list.series.length
        ∧ ∀ i : ℕ, (out.series[i]?).map api.Timeseries.tagSet
            = (list.series[i]?).map api.Timeseries.tagSet) := by
  refine ⟨transformTimeseries_ok_tagSet, ?_⟩
  intro list t parameters out h
  simp only [transform.ApplyTransform] at h
  cases hm : aggregate.mapMExcept
      (fun series => transform.transformTimeseries series t parameters
        ((list.timerange.resolution : ℚ) / 1000)) list.series with
  | error e =>
    rw [hm] at h
    simp at h
  | ok series =>
    rw [hm] at h
    simp only [Except.ok.injEq] at h
    have hf := mapMExcept_ok_forall2 hm
    refine ⟨by rw [← h], by rw [← h], ?_, ?_⟩
    · rw [← h]
      exact hf.length_eq.symm
    · intro i
      rw [← h]
      rcases forall2_getElem? hf i with ⟨h1, h2⟩ | ⟨a, b, h1, h2, h3⟩
      · simp [h1, h2]
      · rw [h1, h2]
        have hts := transformTimeseries_ok_tagSet _ _ _ _ _ h3
        simp [hts]

/-- Witness for C9: ApplyTransform with Derivative on a one-series list. -/
theorem c9_transform_frame_witness :
    (api.SeriesList.mk [⟨[some 0, some (1 / 30)], [("s", "A")]⟩] ⟨0, 30000, 30000⟩ "test").name
        = (api.SeriesList.mk [⟨[some 1, some 2], [("s", "A")]⟩] ⟨0, 30000, 30000⟩ "test").name
    ∧ (api.SeriesList.mk [⟨[some 0, some (1 / 30)], [("s", "A")]⟩] ⟨0, 30000, 30000⟩ "test").series.length
        = (api.SeriesList.mk [⟨[some 1, some 2], [("s", "A")]⟩] ⟨0, 30000, 30000⟩ "test").series.length := by
  have happ := (c9_transform_frame.2
    (api.SeriesList.mk [⟨[some 1, some 2], [("s", "A")]⟩] ⟨0, 30000, 30000⟩ "test")
    transform.Derivative []
    (api.SeriesList.mk [⟨[some 0, some (1 / 30)], [("s", "A")]⟩] ⟨0, 30000, 30000⟩ "test")
    (by
      simp [transform.ApplyTransform, aggregate.mapMExcept, transform.transformTimeseries,
        transform.Derivative, fsub, fdiv, List.range_succ]
      norm_num))
  exact ⟨happ.2.1, happ.2.2.1⟩

/-- C2 (code bug): the comment on addMetricPoint says the point timestamp is
floored to a slot index, and the claim states the floor formula, but the Go
integer division truncates toward zero. A point one millisecond before the
timerange start has floor slot -1 and should be dropped, yet the code assigns
it to slot 0: with start 100, resolution 10 and a single response point at
timestamp 99 with average 5, processResult returns a series whose slot 0
holds 5 instead of the all-NaN series the claim prescribes. -/
theorem c2_bucket_truncation :
    blueflood.processResult ⟨[⟨99, some 5, some 5, some 5⟩]⟩ ⟨100, 130, 10⟩ blueflood.meanSampler
      = [some 5, none, none, none]
    ∧ Int.fdiv (99 - 100) 10 = -1
    ∧ Int.tdiv (99 - 100) 10 = 0
    ∧ (⟨100, 130, 10⟩ : api.Timerange).slots = 4 := by
  have hslots : (⟨100, 130, 10⟩ : api.Timerange).slots = 4 := by decide
  refine ⟨?_, by decide, by decide, hslots⟩
  have htd : Int.tdiv ((99 : ℤ) - 100) 10 = 0 := by decide
  simp only [blueflood.processResult, blueflood.bucketsFromMetricPoints, List.foldl_cons,
    List.foldl_nil, blueflood.addMetricPoint, blueflood.meanSampler, hslots, htd]
  norm_num [fadd, fdiv]
  rfl

lemma merged_filter (cp lp : Option query.Predicate) (tagSets : List api.TagSet) :
    query.applyPredicates tagSets
      (match cp, lp with
       | none, none => query.TruePredicate
       | none, some p => p
       | some p, none => p
       | some cpp, some epp => query.andPredicate [epp, cpp])
    = tagSets.filter (query.mergedApply cp lp) := by
  cases cp <;> cases lp <;>
    refine List.filter_congr ?_ <;>
    intro ts hts <;>
    simp [query.applyPredicates, query.TruePredicate, query.andPredicate, query.mergedApply,
      Bool.and_comm]

/-- C8: Evaluate on a fetch expression merges the context predicate with the
local one (either may be absent), filters the tag sets of the metric by the
merged predicate, and consumes one fetch-limit unit per survivor: on
overflow it returns the fetch-limit-exceeded error, leaves the counter
unchanged and issues no multi-fetch; otherwise it increments the counter,
issues the multi-fetch, and on backend success returns the fetched series
list renamed to the fetched metric name. -/
theorem c8_fetch_limit (context : query.EvaluationContext) (expr : query.metricFetchExpression)
    (tagSets : List api.TagSet)
    (h : context.getAllTags expr.metricName = Except.ok tagSets) :
    (context.fetchLimit.limit <
        context.fetchLimit.current
          + (tagSets.filter (query.mergedApply context.contextPredicate expr.predicate)).length →
      (query.Evaluate context expr).result
          = Except.error "fetch limit exceeded: too many series to fetch"
      ∧ (query.Evaluate context expr).fetchIssued = false
      ∧ (query.Evaluate context expr).counter = context.fetchLimit)
    ∧ (context.fetchLimit.current
          + (tagSets.filter (query.mergedApply context.contextPredicate expr.predicate)).length
        ≤ context.fetchLimit.limit →
      (query.Evaluate context expr).counter
          = ⟨context.fetchLimit.current
              + (tagSets.filter (query.mergedApply context.contextPredicate expr.predicate)).length,
             context.fetchLimit.limit⟩
      ∧ (query.Evaluate context expr).fetchIssued = true
      ∧ ∀ sl, context.multiBackend
            ((tagSets.filter (query.mergedApply context.contextPredicate expr.predicate)).map
              (fun ts => ⟨expr.metricName, ts⟩)) = Except.ok sl →
          (query.Evaluate context expr).result
            = Except.ok { sl with name := expr.metricName }) := by
  have hmain : query.Evaluate context expr =
      (let filtered := tagSets.filter (query.mergedApply context.contextPredicate expr.predicate)
       let consumed := context.fetchLimit.consume filtered.length
       if consumed.1 then
         match context.multiBackend (filtered.map (fun ts => ⟨expr.metricName, ts⟩)) with
         | .error e => ⟨.error e, consumed.2, true⟩
         | .ok serieslist => ⟨.ok { serieslist with name := expr.metricName }, consumed.2, true⟩
       else ⟨.error "fetch limit exceeded: too many series to fetch", consumed.2, false⟩) := by
    unfold query.Evaluate
    rw [h]
    simp only [← merged_filter context.contextPredicate expr.predicate tagSets]
  constructor
  · intro hover
    have hc : ¬ (context.fetchLimit.current
        + (tagSets.filter (query.mergedApply context.contextPredicate expr.predicate)).length
        ≤ context.fetchLimit.limit) := not_le.mpr hover
    rw [hmain]
    simp only [query.FetchCounter.consume, if_neg hc]
    exact ⟨rfl, rfl, rfl⟩
  · intro hle
    rw [hmain]
    simp only [query.FetchCounter.consume, if_pos hle]
    refine ⟨?_, ?_, ?_⟩
    · cases hb : context.multiBackend
          ((tagSets.filter (query.mergedApply context.contextPredicate expr.predicate)).map
            (fun ts => ⟨expr.metricName, ts⟩)) <;> simp [hb]
    · cases hb : context.multiBackend
          ((tagSets.filter (query.mergedApply context.contextPredicate expr.predicate)).map
            (fun ts => ⟨expr.metricName, ts⟩)) <;> simp [hb]
    · intro sl hsl
      simp [hsl]

/-- Witness for C8 at a concrete context and expression. -/
theorem c8_fetch_limit_witness :
    (query.Evaluate
        ⟨some (fun ts => api.tsGet ts "env" == "prod"),
         fun _ => Except.ok [[("env", "prod")], [("env", "dev")]],
         ⟨0, 10⟩,
         fun _ => Except.ok ⟨[], ⟨0, 0, 1⟩, "raw"⟩⟩
        ⟨"cpu", none⟩).result
      = Except.ok ⟨[], ⟨0, 0, 1⟩, "cpu"⟩ := by
  have happ := (c8_fetch_limit
    ⟨some (fun ts => api.tsGet ts "env" == "prod"),
     fun _ => Except.ok [[("env", "prod")], [("env", "dev")]],
     ⟨0, 10⟩,
     fun _ => Except.ok ⟨[], ⟨0, 0, 1⟩, "raw"⟩⟩
    ⟨"cpu", none⟩
    [[("env", "prod")], [("env", "dev")]] rfl).2 (by decide)
  exact happ.2.2 ⟨[], ⟨0, 0, 1⟩, "raw"⟩ rfl

lemma tsGet_cons (k v : String) (l : api.TagSet) (t : String) :
    api.tsGet ((k, v) :: l) t = if k = t then v else api.tsGet l t := by
  by_cases h : k = t
  · subst h
    simp [api.tsGet, List.find?_cons]
  · simp only [api.tsGet, List.find?_cons]
    have hb : ((k, v).1 == t) = false := by simpa using h
    rw [hb]
    simp [h]

lemma tsGet_projTags (tags : List String) (ts : api.TagSet) :
    ∀ t ∈ tags, api.tsGet (aggregate.projTags tags ts) t = api.tsGet ts t := by
  induction tags with
  | nil => simp
  | cons t0 rest ih =>
    intro t ht
    rw [aggregate.projTags, List.map_cons, tsGet_cons]
    by_cases h : t0 = t
    · rw [if_pos h, h]
    · rw [if_neg h]
      have hmem : t ∈ rest := by
        rcases List.mem_cons.mp ht with h1 | h1
        · exact absurd h1.symm h
        · exact h1
      exact ih t hmem

lemma projTags_eq_iff (tags : List String) (ts0 ts1 : api.TagSet) :
    aggregate.projTags tags ts0 = aggregate.projTags tags ts1
    ↔ ∀ t ∈ tags, api.tsGet ts0 t = api.tsGet ts1 t := by
  unfold aggregate.projTags
  rw [List.map_inj_left]
  constructor
  · intro h t ht
    simpa using h t ht
  · intro h t ht
    simp [h t ht]

lemma groupAccepts_proj (tags : List String) (ts0 ts1 : api.TagSet) :
    aggregate.groupAccepts (aggregate.projTags tags ts0) (aggregate.projTags tags ts1) tags = true
    ↔ aggregate.projTags tags ts0 = aggregate.projTags tags ts1 := by
  rw [aggregate.groupAccepts, List.all_eq_true, projTags_eq_iff]
  constructor
  · intro h t ht
    have hb := h t ht
    rw [beq_iff_eq, tsGet_projTags tags ts0 t ht, tsGet_projTags tags ts1 t ht] at hb
    exact hb
  · intro h t ht
    rw [beq_iff_eq, tsGet_projTags tags ts0 t ht, tsGet_projTags tags ts1 t ht]
    exact h t ht

lemma insertToRows_wf (tags : List String) (s : api.Timeseries) (ts0 : api.TagSet)
    (hs : s.tagSet = aggregate.projTags tags ts0) :
    ∀ rows : List aggregate.Group, GroupsWF tags rows →
      GroupsWF tags (aggregate.insertToRows rows s tags) := by
  intro rows
  induction rows with
  | nil =>
    intro _ g hg
    simp only [aggregate.insertToRows, List.mem_singleton] at hg
    subst hg
    exact ⟨by simp, by simp, ⟨ts0, hs⟩⟩
  | cons row rest ih =>
    intro hwf
    rw [aggregate.insertToRows]
    by_cases hacc : aggregate.groupAccepts row.tagSet s.tagSet tags = true
    · rw [if_pos hacc]
      intro g hg
      rcases List.mem_cons.mp hg with h1 | h1
      · subst h1
        obtain ⟨hne, hmem, ts1, hts1⟩ := hwf row (List.mem_cons_self _ _)
        have heq : row.tagSet = s.tagSet := by
          rw [hts1, hs]
          exact (groupAccepts_proj tags ts1 ts0).mp (by rw [← hts1, ← hs]; exact hacc)
        refine ⟨by simp, ?_, ⟨ts1, hts1⟩⟩
        intro x hx
        rcases List.mem_append.mp hx with h2 | h2
        · exact hmem x h2
        · rw [List.mem_singleton] at h2
          subst h2
          exact heq.symm
      · exact hwf g (List.mem_cons_of_mem _ h1)
    · rw [if_neg hacc]
      intro g hg
      rcases List.mem_cons.mp hg with h1 | h1
      · subst h1
        exact hwf g (List.mem_cons_self _ _)
      · exact ih (fun g2 hg2 => hwf g2 (List.mem_cons_of_mem _ hg2)) g h1

lemma insertToRows_flatten (tags : List String) (s : api.Timeseries) :
    ∀ rows : List aggregate.Group,
      ((aggregate.insertToRows rows s tags).flatMap aggregate.Group.list).Perm
        (s :: rows.flatMap aggregate.Group.list) := by
  intro rows
  induction rows with
  | nil =>
    simp [aggregate.insertToRows]
  | cons row rest ih =>
    rw [aggregate.insertToRows]
    by_cases hacc : aggregate.groupAccepts row.tagSet s.tagSet tags = true
    · rw [if_pos hacc]
      simp only [List.flatMap_cons]
      rw [List.append_assoc]
      exact List.perm_middle
    · rw [if_neg hacc]
      simp only [List.flatMap_cons]
      exact (List.Perm.append_left row.list ih).trans List.perm_middle

lemma insertToRows_tagSets (tags : List String) (s : api.Timeseries) (ts0 : api.TagSet)
    (hs : s.tagSet = aggregate.projTags tags ts0) :
    ∀ rows : List aggregate.Group, GroupsWF tags rows →
      (aggregate.insertToRows rows s tags).map aggregate.Group.tagSet
        = if s.tagSet ∈ rows.map aggregate.Group.tagSet
          then rows.map aggregate.Group.tagSet
          else rows.map aggregate.Group.tagSet ++ [s.tagSet] := by
  intro rows
  induction rows with
  | nil =>
    intro _
    simp [aggregate.insertToRows]
  | cons row rest ih =>
    intro hwf
    obtain ⟨_, _, ts1, hts1⟩ := hwf row (List.mem_cons_self _ _)
    rw [aggregate.insertToRows]
    by_cases hacc : aggregate.groupAccepts row.tagSet s.tagSet tags = true
    · rw [if_pos hacc]
      have heq : row.tagSet = s.tagSet := by
        rw [hts1, hs]
        exact (groupAccepts_proj tags ts1 ts0).mp (by rw [← hts1, ← hs]; exact hacc)
      simp only [List.map_cons]
      rw [if_pos (by rw [← heq]; exact List.mem_cons_self _ _)]
    · rw [if_neg hacc]
      have hne2 : row.tagSet ≠ s.tagSet := by
        intro heq
        apply hacc
        rw [hts1, hs]
        exact (groupAccepts_proj tags ts1 ts0).mpr (by rw [← hts1, ← hs]; exact heq)
      simp only [List.map_cons]
      rw [ih (fun g2 hg2 => hwf g2 (List.mem_cons_of_mem _ hg2))]
      by_cases hmem : s.tagSet ∈ rest.map aggregate.Group.tagSet
      · rw [if_pos hmem, if_pos (List.mem_cons_of_mem _ hmem)]
      · rw [if_neg hmem, if_neg ?_]
        · rfl
        · intro hin
          rcases List.mem_cons.mp hin with h1 | h1
          · exact hne2 h1.symm
          · exact hmem h1

lemma groupBy_loop (tags : List String) :
    ∀ (L : List api.Timeseries) (rows : List aggregate.Group), GroupsWF tags rows →
      GroupsWF tags (L.foldl (fun r s => aggregate.addToGroup r s tags) rows)
      ∧ ((L.foldl (fun r s => aggregate.addToGroup r s tags) rows).flatMap
            aggregate.Group.list).Perm
          (rows.flatMap aggregate.Group.list
            ++ L.map (fun s => { s with tagSet := aggregate.projTags tags s.tagSet }))
      ∧ (L.foldl (fun r s => aggregate.addToGroup r s tags) rows).map aggregate.Group.tagSet
          = L.foldl (fun acc s => if aggregate.projTags tags s.tagSet ∈ acc then acc
              else acc ++ [aggregate.projTags tags s.tagSet])
              (rows.map aggregate.Group.tagSet) := by
  intro L
  induction L with
  | nil =>
    intro rows hwf
    exact ⟨hwf, by simp, rfl⟩
  | cons s L2 ih =>
    intro rows hwf
    simp only [List.foldl_cons]
    have hs : ({ s with tagSet := aggregate.projTags tags s.tagSet } : api.Timeseries).tagSet
        = aggregate.projTags tags s.tagSet := rfl
    have hwf2 : GroupsWF tags (aggregate.addToGroup rows s tags) :=
      insertToRows_wf tags _ s.tagSet hs rows hwf
    obtain ⟨h1, h2, h3⟩ := ih (aggregate.addToGroup rows s tags) hwf2
    refine ⟨h1, ?_, ?_⟩
    · refine h2.trans ?_
      have hfl := insertToRows_flatten tags { s with tagSet := aggregate.projTags tags s.tagSet }
        rows
      refine (hfl.append_right (L2.map _)).trans ?_
      exact List.perm_middle.symm
    · rw [h3, aggregate.addToGroup, insertToRows_tagSets tags _ s.tagSet hs rows hwf]

lemma groupBy_wf (list : api.SeriesList) (tags : List String) :
    GroupsWF tags (aggregate.groupBy list tags) :=
  (groupBy_loop tags list.series [] (by intro g hg; simp at hg)).1

lemma groupBy_flatten (list : api.SeriesList) (tags : List String) :
    ((aggregate.groupBy list tags).flatMap aggregate.Group.list).Perm
      (list.series.map (fun s => { s with tagSet := aggregate.projTags tags s.tagSet })) := by
  have h := (groupBy_loop tags list.series [] (by intro g hg; simp at hg)).2.1
  simpa [aggregate.groupBy] using h

lemma groupBy_tagSets (list : api.SeriesList) (tags : List String) :
    (aggregate.groupBy list tags).map aggregate.Group.tagSet
      = aggregate.firstEncounters
          (list.series.map (fun s => aggregate.projTags tags s.tagSet)) := by
  have h := (groupBy_loop tags list.series [] (by intro g hg; simp at hg)).2.2
  rw [aggregate.firstEncounters, List.foldl_map]
  simpa [aggregate.groupBy] using h

lemma foldl_firstEnc_nodup :
    ∀ (l : List api.TagSet) (acc : List api.TagSet), acc.Nodup →
      (l.foldl (fun acc x => if x ∈ acc then acc else acc ++ [x]) acc).Nodup := by
  intro l
  induction l with
  | nil =>
    intro acc h
    exact h
  | cons x xs ih =>
    intro acc h
    simp only [List.foldl_cons]
    by_cases hm : x ∈ acc
    · rw [if_pos hm]
      exact ih acc h
    · rw [if_neg hm]
      refine ih _ ?_
      rw [List.nodup_append]
      exact ⟨h, List.nodup_singleton x, by simp [hm]⟩

lemma groupBy_tagSets_nodup (list : api.SeriesList) (tags : List String) :
    ((aggregate.groupBy list tags).map aggregate.Group.tagSet).Nodup := by
  rw [groupBy_tagSets, aggregate.firstEncounters]
  exact foldl_firstEnc_nodup
    (list.series.map (fun s => aggregate.projTags tags s.tagSet)) [] List.nodup_nil

/-- C10: every group produced by groupBy has at least one member, so
applyAggregation can never take its empty-group panic branch on a group that
came from groupBy, hence the panic is unreachable from AggregateBy. -/
theorem c10_no_empty_group (list : api.SeriesList) (tags : List String)
    (g : aggregate.Group) (hg : g ∈ aggregate.groupBy list tags)
    (aggregator : List F → F) :
    g.list ≠ []
    ∧ aggregate.applyAggregation g aggregator ≠ Except.error aggregate.AggErr.emptyGroup := by
  have hne := (groupBy_wf list tags g hg).1
  refine ⟨hne, ?_⟩
  obtain ⟨s0, rest, hl⟩ := List.exists_cons_of_ne_nil hne
  rw [aggregate.applyAggregation, hl]
  show (match aggregate.mapMOption
      (fun i => aggregate.mapMOption (fun s => s.values[i]?) (s0 :: rest))
      (List.range s0.values.length) with
    | none => Except.error aggregate.AggErr.indexOutOfRange
    | some slices => Except.ok (api.Timeseries.mk (slices.map aggregator) g.tagSet))
    ≠ Except.error aggregate.AggErr.emptyGroup
  cases hx : aggregate.mapMOption
      (fun i => aggregate.mapMOption (fun s => s.values[i]?) (s0 :: rest))
      (List.range s0.values.length) with
  | none => simp
  | some slices => simp

/-- Witness for C10 at a concrete list and tag set. -/
theorem c10_no_empty_group_witness :
    (⟨[⟨[], [("a", "b")]⟩], [("a", "b")]⟩ : aggregate.Group).list ≠ []
    ∧ aggregate.applyAggregation ⟨[⟨[], [("a", "b")]⟩], [("a", "b")]⟩ aggregate.Sum
        ≠ Except.error aggregate.AggErr.emptyGroup :=
  c10_no_empty_group ⟨[⟨[], [("a", "b")]⟩], ⟨0, 0, 1⟩, "w"⟩ ["a"]
    ⟨[⟨[], [("a", "b")]⟩], [("a", "b")]⟩ (by decide) aggregate.Sum

/-- C5: groupBy partitions the series of the list: the concatenation of the
groups is a permutation of the projected input series (so every input series
lands in exactly one group); members of one group carry the group tag set
and agree on every grouped tag; members of distinct groups disagree on some
grouped tag; every group tag set is the projection of its members onto the
grouped tags; and the group tag sets appear in first-encounter order of
their representative. -/
theorem c5_groupBy_partition (list : api.SeriesList) (tags : List String) :
    ((aggregate.groupBy list tags).flatMap aggregate.Group.list).Perm
        (list.series.map (fun s => { s with tagSet := aggregate.projTags tags s.tagSet }))
    ∧ (∀ g ∈ aggregate.groupBy list tags, ∀ s ∈ g.list, s.tagSet = g.tagSet)
    ∧ (∀ g ∈ aggregate.groupBy list tags, ∀ s1 ∈ g.list, ∀ s2 ∈ g.list, ∀ t ∈ tags,
        api.tsGet s1.tagSet t = api.tsGet s2.tagSet t)
    ∧ (aggregate.groupBy list tags).Pairwise (fun g1 g2 =>
        ∀ s1 ∈ g1.list, ∀ s2 ∈ g2.list,
        ∃ t ∈ tags, api.tsGet s1.tagSet t ≠ api.tsGet s2.tagSet t)
    ∧ (aggregate.groupBy list tags).map aggregate.Group.tagSet
        = aggregate.firstEncounters
            (list.series.map (fun s => aggregate.projTags tags s.tagSet)) := by
  have hwf := groupBy_wf list tags
  refine ⟨groupBy_flatten list tags, ?_, ?_, ?_, groupBy_tagSets list tags⟩
  · intro g hg s hs
    exact (hwf g hg).2.1 s hs
  · intro g hg s1 h1 s2 h2 t ht
    rw [(hwf g hg).2.1 s1 h1, (hwf g hg).2.1 s2 h2]
  · have hnodup := groupBy_tagSets_nodup list tags
    have hpw : (aggregate.groupBy list tags).Pairwise
        (fun g1 g2 => g1.tagSet ≠ g2.tagSet) := List.pairwise_map.mp hnodup
    refine List.Pairwise.imp_of_mem ?_ hpw
    intro g1 g2 hg1 hg2 hne s1 h1 s2 h2
    obtain ⟨tsi, htsi⟩ := (hwf g1 hg1).2.2
    obtain ⟨tsj, htsj⟩ := (hwf g2 hg2).2.2
    rw [htsi, htsj] at hne
    have hnall : ¬ ∀ t ∈ tags, api.tsGet tsi t = api.tsGet tsj t := fun hall =>
      hne ((projTags_eq_iff tags tsi tsj).mpr hall)
    push_neg at hnall
    obtain ⟨t, ht, htne⟩ := hnall
    refine ⟨t, ht, ?_⟩
    rw [(hwf g1 hg1).2.1 s1 h1, (hwf g2 hg2).2.1 s2 h2, htsi, htsj,
      tsGet_projTags tags tsi t ht, tsGet_projTags tags tsj t ht]
    exact htne

/-- Witness for C5 at a concrete two-series list grouped by one tag. -/
theorem c5_groupBy_partition_witness :
    ((aggregate.groupBy ⟨[⟨[], [("dc", "A")]⟩, ⟨[], [("dc", "B")]⟩], ⟨0, 0, 1⟩, "w"⟩
        ["dc"]).flatMap aggregate.Group.list).Perm
      ([⟨[], [("dc", "A")]⟩, ⟨[], [("dc", "B")]⟩] : List api.Timeseries)
    ∧ (aggregate.groupBy ⟨[⟨[], [("dc", "A")]⟩, ⟨[], [("dc", "B")]⟩], ⟨0, 0, 1⟩, "w"⟩
        ["dc"]).map aggregate.Group.tagSet = [[("dc", "A")], [("dc", "B")]] := by
  have happ := c5_groupBy_partition
    ⟨[⟨[], [("dc", "A")]⟩, ⟨[], [("dc", "B")]⟩], ⟨0, 0, 1⟩, "w"⟩ ["dc"]
  constructor
  · have h1 := happ.1
    have hmap : ([⟨[], [("dc", "A")]⟩, ⟨[], [("dc", "B")]⟩] : List api.Timeseries).map
        (fun s => { s with tagSet := aggregate.projTags ["dc"] s.tagSet })
        = [⟨[], [("dc", "A")]⟩, ⟨[], [("dc", "B")]⟩] := by decide
    rw [hmap] at h1
    exact h1
  · have h5 := happ.2.2.2.2
    have hmap : ([⟨[], [("dc", "A")]⟩, ⟨[], [("dc", "B")]⟩] : List api.Timeseries).map
        (fun s => aggregate.projTags ["dc"] s.tagSet) = [[("dc", "A")], [("dc", "B")]] := by
      decide
    rw [hmap] at h5
    rw [h5]
    decide

lemma mapMOption_eq_map {α β : Type} {f : α → Option β} {gf : α → β} :
    ∀ {l : List α}, (∀ a ∈ l, f a = some (gf a)) →
      aggregate.mapMOption f l = some (l.map gf) := by
  intro l
  induction l with
  | nil =>
    intro _
    rfl
  | cons a as ih =>
    intro h
    simp only [aggregate.mapMOption, h a (List.mem_cons_self _ _),
      ih (fun x hx => h x (List.mem_cons_of_mem _ hx)), List.map_cons]

lemma mapMExcept_eq_map {α β ε : Type} {f : α → Except ε β} {gf : α → β} :
    ∀ {l : List α}, (∀ a ∈ l, f a = Except.ok (gf a)) →
      aggregate.mapMExcept f l = Except.ok (l.map gf) := by
  intro l
  induction l with
  | nil =>
    intro _
    rfl
  | cons a as ih =>
    intro h
    simp only [aggregate.mapMExcept, h a (List.mem_cons_self _ _),
      ih (fun x hx => h x (List.mem_cons_of_mem _ hx)), List.map_cons]

lemma groupBy_members (list : api.SeriesList) (tags : List String) :
    ∀ g ∈ aggregate.groupBy list tags, ∀ s ∈ g.list,
      ∃ s0 ∈ list.series, s.values = s0.values := by
  intro g hg s hs
  have hmem : s ∈ (aggregate.groupBy list tags).flatMap aggregate.Group.list :=
    List.mem_flatMap.mpr ⟨g, hg, hs⟩
  have hmem2 := (groupBy_flatten list tags).mem_iff.mp hmem
  obtain ⟨s0, hs0, heq⟩ := List.mem_map.mp hmem2
  exact ⟨s0, hs0, by rw [← heq]⟩

lemma applyAggregation_ok (g : aggregate.Group) (aggregator : List F → F) (n : ℕ)
    (hne : g.list ≠ []) (hlen : ∀ s ∈ g.list, s.values.length = n) :
    aggregate.applyAggregation g aggregator = Except.ok
      ⟨(List.range n).map (fun i => aggregator (g.list.map (fun s => s.values.getD i none))),
        g.tagSet⟩ := by
  obtain ⟨s0, rest, hl⟩ := List.exists_cons_of_ne_nil hne
  rw [hl] at hlen
  have hs0 : s0.values.length = n := hlen s0 (List.mem_cons_self _ _)
  have hinner : ∀ i ∈ List.range n,
      aggregate.mapMOption (fun s => s.values[i]?) (s0 :: rest)
        = some ((s0 :: rest).map (fun s => s.values.getD i none)) := by
    intro i hi
    apply mapMOption_eq_map
    intro s hs
    have hlt : i < s.values.length := by
      rw [hlen s hs]
      exact List.mem_range.mp hi
    rw [List.getElem?_eq_getElem hlt, List.getD_eq_getElem?_getD,
      List.getElem?_eq_getElem hlt]
    rfl
  rw [aggregate.applyAggregation, hl]
  show (match aggregate.mapMOption
      (fun i => aggregate.mapMOption (fun s => s.values[i]?) (s0 :: rest))
      (List.range s0.values.length) with
    | none => Except.error aggregate.AggErr.indexOutOfRange
    | some slices => Except.ok (api.Timeseries.mk (slices.map aggregator) g.tagSet)) = _
  rw [hs0]
  simp only [mapMOption_eq_map hinner]
  simp [List.map_map, Function.comp]

lemma aggregateBy_closed_form (list : api.SeriesList) (aggregator : List F → F)
    (tags : List String) (n : ℕ) (h : ∀ s ∈ list.series, s.values.length = n) :
    aggregate.AggregateBy list aggregator tags = Except.ok
      ⟨(aggregate.groupBy list tags).map (fun g =>
          ⟨(List.range n).map (fun i => aggregator (g.list.map (fun s => s.values.getD i none))),
            g.tagSet⟩),
        list.timerange, list.name⟩ := by
  have hgl : ∀ g ∈ aggregate.groupBy list tags,
      aggregate.applyAggregation g aggregator = Except.ok
        (api.Timeseries.mk
          ((List.range n).map (fun i => aggregator (g.list.map (fun s => s.values.getD i none))))
          g.tagSet) := by
    intro g hg
    apply applyAggregation_ok g aggregator n ((groupBy_wf list tags) g hg).1
    intro s hs
    obtain ⟨s0, hs0, heq⟩ := groupBy_members list tags g hg s hs
    rw [heq]
    exact h s0 hs0
  rw [aggregate.AggregateBy]
  simp only [mapMExcept_eq_map hgl]

lemma c6len : ∀ s ∈ c6list.series, s.values.length = 4 := by
  simp [c6list, c6series]

lemma c6groups : aggregate.groupBy c6list ["env", "dc"]
    = [⟨c6series, [("env", "production"), ("dc", "A")]⟩] := by
  simp [c6list, c6series, aggregate.groupBy, aggregate.addToGroup, aggregate.insertToRows,
    aggregate.groupAccepts, aggregate.projTags, api.tsGet, List.find?]

lemma c6range : List.range 4 = [0, 1, 2, 3] := by decide

/-- C6: AggregateBy groups the list and produces, per group, one series whose
slot i is the aggregator of the member values at slot i, tagged with the
group representative, keeping the timerange and name of the input; on four
identically tagged series with values [0,1,2,3], [4,0,4,4], [-1,-1,2,2] and
[0,2,0,2] it yields [3,2,8,11] under Sum, [0.75,0.5,2,2.75] under Mean,
[-1,-1,0,2] under Min and [4,2,4,4] under Max. -/
theorem c6_aggregate_by :
    (∀ (list : api.SeriesList) (aggregator : List F → F) (tags : List String) (n : ℕ),
      (∀ s ∈ list.series, s.values.length = n) →
      aggregate.AggregateBy list aggregator tags = Except.ok
        ⟨(aggregate.groupBy list tags).map (fun g =>
            ⟨(List.range n).map
                (fun i => aggregator (g.list.map (fun s => s.values.getD i none))),
              g.tagSet⟩),
          list.timerange, list.name⟩)
    ∧ aggregate.AggregateBy c6list aggregate.Sum ["env", "dc"] = Except.ok
        ⟨[⟨[some 3, some 2, some 8, some 11], [("env", "production"), ("dc", "A")]⟩],
          ⟨42, 60, 6⟩, "test"⟩
    ∧ aggregate.AggregateBy c6list aggregate.Mean ["env", "dc"] = Except.ok
        ⟨[⟨[some (3 / 4), some (1 / 2), some 2, some (11 / 4)],
            [("env", "production"), ("dc", "A")]⟩],
          ⟨42, 60, 6⟩, "test"⟩
    ∧ aggregate.AggregateBy c6list aggregate.Min ["env", "dc"] = Except.ok
        ⟨[⟨[some (-1), some (-1), some 0, some 2], [("env", "production"), ("dc", "A")]⟩],
          ⟨42, 60, 6⟩, "test"⟩
    ∧ aggregate.AggregateBy c6list aggregate.Max ["env", "dc"] = Except.ok
        ⟨[⟨[some 4, some 2, some 4, some 4], [("env", "production"), ("dc", "A")]⟩],
          ⟨42, 60, 6⟩, "test"⟩ := by
  refine ⟨aggregateBy_closed_form, ?_, ?_, ?_, ?_⟩
  · rw [aggregateBy_closed_form c6list aggregate.Sum ["env", "dc"] 4 c6len, c6groups, c6range]
    norm_num [c6list, c6series, aggregate.Sum, aggregate.filterNaN, List.getD,
      List.filterMap_cons, List.filterMap_nil]
  · rw [aggregateBy_closed_form c6list aggregate.Mean ["env", "dc"] 4 c6len, c6groups, c6range]
    norm_num [c6list, c6series, aggregate.Mean, aggregate.filterNaN, List.getD,
      List.filterMap_cons, List.filterMap_nil]
  · rw [aggregateBy_closed_form c6list aggregate.Min ["env", "dc"] 4 c6len, c6groups, c6range]
    norm_num [c6list, c6series, aggregate.Min, aggregate.filterNaN, List.getD,
      List.filterMap_cons, List.filterMap_nil, min_def]
  · rw [aggregateBy_closed_form c6list aggregate.Max ["env", "dc"] 4 c6len, c6groups, c6range]
    norm_num [c6list, c6series, aggregate.Max, aggregate.filterNaN, List.getD,
      List.filterMap_cons, List.filterMap_nil, max_def]

/-- Witness for C6 at a one-series list aggregated over no tags. -/
theorem c6_aggregate_by_witness :
    aggregate.AggregateBy ⟨[⟨[], []⟩], ⟨0, 0, 1⟩, "x"⟩ aggregate.Sum []
      = Except.ok ⟨[⟨[], []⟩], ⟨0, 0, 1⟩, "x"⟩ := by
  rw [c6_aggregate_by.1 ⟨[⟨[], []⟩], ⟨0, 0, 1⟩, "x"⟩ aggregate.Sum [] 0 (by simp)]
  simp [aggregate.groupBy, aggregate.addToGroup, aggregate.insertToRows, aggregate.projTags,
    List.range_zero]

lemma dropLit_sound : ∀ (s cs r : List Char), rules.dropLit s cs = some r → cs = s ++ r := by
  intro s
  induction s with
  | nil =>
    intro cs r h
    simp only [rules.dropLit, Option.some.injEq] at h
    rw [h, List.nil_append]
  | cons a as ih =>
    intro cs r h
    cases cs with
    | nil => simp [rules.dropLit] at h
    | cons c cs2 =>
      simp only [rules.dropLit] at h
      by_cases hac : a = c
      · rw [if_pos hac] at h
        subst hac
        rw [List.cons_append]
        exact congrArg (fun l => a :: l) (ih cs2 r h)
      · rw [if_neg hac] at h
        exact absurd h (by simp)

lemma dropLit_self : ∀ (s r : List Char), rules.dropLit s (s ++ r) = some r := by
  intro s
  induction s with
  | nil => intro r; rfl
  | cons a as ih =>
    intro r
    simp only [List.cons_append, rules.dropLit, if_pos rfl]
    exact ih r

lemma lookupB_cons_self (t : String) (v : List Char) (bs : rules.Bindings) :
    rules.lookupB ((t, v) :: bs) t = some v := by
  simp [rules.lookupB, List.find?_cons]

lemma lookupB_cons_ne (t u : String) (v : List Char) (bs : rules.Bindings) (h : t ≠ u) :
    rules.lookupB ((t, v) :: bs) u = rules.lookupB bs u := by
  simp only [rules.lookupB, List.find?_cons]
  have hb : ((t, v).1 == u) = false := by simpa using h
  rw [hb]

lemma interpolate_congr : ∀ (ps : List rules.Piece) (f g : String → Option (List Char)),
    (∀ t ∈ rules.tagNames ps, f t = g t) →
      rules.interpolate ps f = rules.interpolate ps g := by
  intro ps
  induction ps with
  | nil =>
    intro f g _
    rfl
  | cons p rest ih =>
    intro f g h
    cases p with
    | lit s =>
      simp only [rules.interpolate]
      rw [ih f g (fun t ht => h t (by simpa [rules.tagNames] using ht))]
    | tag t =>
      simp only [rules.interpolate]
      rw [h t (by simp [rules.tagNames])]
      cases hgt : g t with
      | none => rfl
      | some v =>
        rw [ih f g (fun u hu => h u (by simp [rules.tagNames, hu]))]

lemma matchPieces_sound : ∀ (ps : List rules.Piece) (cs : List Char) (bs : rules.Bindings),
    rules.matchPieces ps cs = some bs →
    bs.map Prod.fst = rules.tagNames ps
    ∧ ((rules.tagNames ps).Nodup →
        rules.interpolate ps (rules.lookupB bs) = some cs) := by
  intro ps
  induction ps with
  | nil =>
    intro cs bs h
    cases cs with
    | nil =>
      simp only [rules.matchPieces, List.isEmpty_nil, if_pos, Option.some.injEq] at h
      subst h
      exact ⟨rfl, fun _ => rfl⟩
    | cons c cs2 =>
      simp [rules.matchPieces] at h
  | cons p rest ih =>
    intro cs bs h
    cases p with
    | lit s =>
      simp only [rules.matchPieces] at h
      cases hd : rules.dropLit s cs with
      | none =>
        rw [hd] at h
        simp at h
      | some r =>
        rw [hd] at h
        simp only [] at h
        obtain ⟨h1, h2⟩ := ih r bs h
        refine ⟨by simpa [rules.tagNames] using h1, ?_⟩
        intro hnd
        simp only [rules.interpolate]
        rw [h2 (by simpa [rules.tagNames] using hnd)]
        rw [dropLit_sound s cs r hd]
        rfl
    | tag t =>
      simp only [rules.matchPieces] at h
      obtain ⟨k, _, hk⟩ := List.exists_of_findSome?_eq_some h
      cases hm : rules.matchPieces rest (List.drop k cs) with
      | none =>
        rw [hm] at hk
        simp at hk
      | some bs2 =>
        rw [hm] at hk
        simp only [Option.map_some', Option.some.injEq] at hk
        obtain ⟨h1, h2⟩ := ih (List.drop k cs) bs2 hm
        subst hk
        constructor
        · simpa [rules.tagNames] using h1
        · intro hnd
          have hnd2 : t ∉ rules.tagNames rest ∧ (rules.tagNames rest).Nodup := by
            simpa [rules.tagNames, List.nodup_cons] using hnd
          simp only [rules.interpolate, lookupB_cons_self]
          rw [interpolate_congr rest _ (rules.lookupB bs2) (fun u hu =>
            lookupB_cons_ne t u (List.take k cs) bs2 (fun he => hnd2.1 (he ▸ hu)))]
          rw [h2 hnd2.2]
          simp [List.take_append_drop]

lemma tagNames_all_lit : ∀ ps : List rules.Piece, (∀ p ∈ ps, p.isTag = false) →
    rules.tagNames ps = [] := by
  intro ps
  induction ps with
  | nil =>
    intro _
    rfl
  | cons p rest ih =>
    intro h
    cases p with
    | lit s =>
      simp only [rules.tagNames]
      exact ih (fun q hq => h q (List.mem_cons_of_mem _ hq))
    | tag t =>
      have hpt := h (.tag t) (List.mem_cons_self _ _)
      simp [rules.Piece.isTag] at hpt

lemma interpolate_all_lit : ∀ ps : List rules.Piece, (∀ p ∈ ps, p.isTag = false) →
    ∀ f, rules.interpolate ps f = some (rules.litConcat ps) := by
  intro ps
  induction ps with
  | nil =>
    intro _ f
    rfl
  | cons p rest ih =>
    intro h f
    cases p with
    | lit s =>
      simp only [rules.interpolate, rules.litConcat]
      rw [ih (fun q hq => h q (List.mem_cons_of_mem _ hq)) f]
      rfl
    | tag t =>
      have hpt := h (.tag t) (List.mem_cons_self _ _)
      simp [rules.Piece.isTag] at hpt

lemma matchPieces_all_lit : ∀ ps : List rules.Piece, (∀ p ∈ ps, p.isTag = false) →
    rules.matchPieces ps (rules.litConcat ps) = some [] := by
  intro ps
  induction ps with
  | nil =>
    intro _
    rfl
  | cons p rest ih =>
    intro h
    cases p with
    | lit s =>
      simp only [rules.litConcat, rules.matchPieces, dropLit_self]
      exact ih (fun q hq => h q (List.mem_cons_of_mem _ hq))
    | tag t =>
      have hpt := h (.tag t) (List.mem_cons_self _ _)
      simp [rules.Piece.isTag] at hpt

/-- C1 (amended): for a valid compiled rule whose metric-key pattern holds no
tag placeholder, the inverse render is a left inverse of the forward match:
whenever MatchRule succeeds on a name, ToGraphiteName on the matched metric
returns exactly that name. -/
theorem c1_roundtrip_amended (rule : rules.Rule) (name : List Char) (m : rules.TaggedMetric)
    (hv : rules.ruleValid rule = true)
    (hlit : ∀ p ∈ rule.metricKeyPattern, p.isTag = false)
    (hm : rules.MatchRule rule name = some m) :
    rules.ToGraphiteName rule m = Except.ok name := by
  have hnodup : (rules.tagNames rule.pattern).Nodup := by
    have hv2 := hv
    simp only [rules.ruleValid, Bool.and_eq_true, decide_eq_true_eq] at hv2
    tauto
  have hkeys : rules.tagNames rule.metricKeyPattern = [] := tagNames_all_lit _ hlit
  cases hb : rules.matchPieces rule.pattern name with
  | none =>
    rw [rules.MatchRule, hb] at hm
    simp at hm
  | some bs =>
    have hfilter : bs.filter
        (fun p => !(rules.tagNames rule.metricKeyPattern).contains p.1) = bs := by
      rw [hkeys]
      simp
    have hm2 : m = ⟨rules.litConcat rule.metricKeyPattern, bs⟩ := by
      rw [rules.MatchRule] at hm
      simp only [hb, interpolate_all_lit rule.metricKeyPattern hlit, hfilter,
        Option.some.injEq] at hm
      exact hm.symm
    subst hm2
    rw [rules.ToGraphiteName]
    have hsound := matchPieces_sound rule.pattern name bs hb
    have hres : rules.interpolate rule.pattern
        (fun t =>
          match rules.lookupB [] t with
          | some v => some v
          | none => rules.lookupB
              (rules.TaggedMetric.mk (rules.litConcat rule.metricKeyPattern) bs).tagSet t)
        = some name := by
      have hcongr := interpolate_congr rule.pattern
        (fun t =>
          match rules.lookupB [] t with
          | some v => some v
          | none => rules.lookupB
              (rules.TaggedMetric.mk (rules.litConcat rule.metricKeyPattern) bs).tagSet t)
        (rules.lookupB bs) (fun t _ => rfl)
      rw [hcongr]
      exact hsound.2 hnodup
    simp only [matchPieces_all_lit rule.metricKeyPattern hlit, hres]

/-- C1 counterexample: the round-trip law fails for a valid rule whose
metric-key pattern interpolates tags. The names p.a.b-c and p.a-b.c both
forward-map to the tagged metric (a-b-c, no tags), so the inverse cannot
restore both; concretely, matching p.a.b-c and rendering back yields
p.a-b.c. -/
theorem c1_counterexample :
    rules.ruleValid cRule = true
    ∧ rules.MatchRule cRule ("p.a.b-c".toList) = some ⟨"a-b-c".toList, []⟩
    ∧ rules.ToGraphiteName cRule ⟨"a-b-c".toList, []⟩ = Except.ok ("p.a-b.c".toList)
    ∧ "p.a-b.c".toList ≠ "p.a.b-c".toList := by
  refine ⟨by decide, by rfl, by rfl, by decide⟩

/-- Witness for C1 (amended) at a concrete rule and name. -/
theorem c1_roundtrip_amended_witness :
    rules.ToGraphiteName wRule ⟨"test-metric".toList, [("foo", "abc".toList)]⟩
      = Except.ok ("prefix.abc".toList) :=
  c1_roundtrip_amended wRule ("prefix.abc".toList)
    ⟨"test-metric".toList, [("foo", "abc".toList)]⟩
    (by decide) (by decide) (by decide)
